import Mathlib

/-!
Verification of the gallery-manifest generator (generate-gallery.mjs).

The script is shallowly embedded below: the filename-date heuristic is
modelled together with the exact JavaScript regular-expression semantics it
relies on (leftmost match, greedy optional separators with backtracking, and
ECMAScript word boundaries where the word class is [A-Za-z0-9_]), JavaScript
Date construction is modelled with its month/day rollover normalisation
(MakeDay/MakeTime of the ECMA-262 spec, on the local clock), and the
concurrency limiter mapLimit is modelled as a nondeterministic transition
system whose completion order is unconstrained.
-/

namespace Gallery

/-! ## Characters and character classes (ECMAScript `\d` and `\w`) -/

def isDigitChar (c : Char) : Bool := 48 ≤ c.toNat && c.toNat ≤ 57

def isWordChar (c : Char) : Bool :=
  (65 ≤ c.toNat && c.toNat ≤ 90) || (97 ≤ c.toNat && c.toNat ≤ 122) ||
    isDigitChar c || c.toNat = 95

def digitVal (c : Char) : Nat := c.toNat - 48

/-- Separator class `[-_]` used between date components. -/
def dSeps : List Char := ['-', '_']

/-- Separator class `[T _-]` between the date and the time. -/
def tSepA : List Char := ['T', ' ', '_', '-']

/-- Separator class `[:_-]` between time components. -/
def tSepB : List Char := [':', '_', '-']

/-- `\d{2}`: two digit characters, returning their decimal value. -/
def two : List Char → Option (Nat × List Char)
  | c1 :: c2 :: rest =>
    if isDigitChar c1 && isDigitChar c2 then some (10 * digitVal c1 + digitVal c2, rest)
    else Option.none
  | _ => Option.none

/-- Trailing `\b` after a word character: end of input or a non-word character. -/
def boundaryAfter : List Char → Bool
  | [] => true
  | c :: _ => !isWordChar c

/-- A greedy optional separator `[...]?` with backtracking: first try the
continuation after consuming a separator character, then without. -/
def optSep {α : Type} (seps : List Char) (l : List Char) (k : List Char → Option α) :
    Option α :=
  match l with
  | [] => k []
  | c :: rs =>
    if c ∈ seps then
      match k rs with
      | some m => some m
      | Option.none => k (c :: rs)
    else k (c :: rs)

/-- A mandatory separator `[...]`. -/
def reqSep {α : Type} (seps : List Char) (l : List Char) (k : List Char → Option α) :
    Option α :=
  match l with
  | [] => Option.none
  | c :: rs => if c ∈ seps then k rs else Option.none

/-- Captured groups of `\b(20\d{2})[-_]?(\d{2})[-_]?(\d{2})[T _-]?(\d{2})[:_-]?(\d{2})[:_-]?(\d{2})\b`. -/
structure M1 where
  y : Nat
  mo : Nat
  d : Nat
  hh : Nat
  mi : Nat
  ss : Nat
deriving DecidableEq

/-- Captured groups of the two date-only patterns. -/
structure M3 where
  y : Nat
  mo : Nat
  d : Nat
deriving DecidableEq

/-- Matching the first regex at one position (the leading `\b` is checked by the
scanner): `(20\d{2})[-_]?(\d{2})[-_]?(\d{2})[T _-]?(\d{2})[:_-]?(\d{2})[:_-]?(\d{2})\b`. -/
def attempt1 (l : List Char) : Option M1 :=
  match l with
  | '2' :: '0' :: rest =>
    match two rest with
    | Option.none => Option.none
    | some (yl, r1) =>
      optSep dSeps r1 fun r2 =>
        match two r2 with
        | Option.none => Option.none
        | some (mo, r3) =>
          optSep dSeps r3 fun r4 =>
            match two r4 with
            | Option.none => Option.none
            | some (d, r5) =>
              optSep tSepA r5 fun r6 =>
                match two r6 with
                | Option.none => Option.none
                | some (hh, r7) =>
                  optSep tSepB r7 fun r8 =>
                    match two r8 with
                    | Option.none => Option.none
                    | some (mi, r9) =>
                      optSep tSepB r9 fun r10 =>
                        match two r10 with
                        | Option.none => Option.none
                        | some (ss, r11) =>
                          if boundaryAfter r11 then some ⟨2000 + yl, mo, d, hh, mi, ss⟩
                          else Option.none
  | _ => Option.none

/-- Matching `(20\d{2})(\d{2})(\d{2})\b` at one position. -/
def attempt2 (l : List Char) : Option M3 :=
  match l with
  | '2' :: '0' :: rest =>
    match two rest with
    | some (yl, r1) =>
      match two r1 with
      | some (mo, r2) =>
        match two r2 with
        | some (d, r3) => if boundaryAfter r3 then some ⟨2000 + yl, mo, d⟩ else Option.none
        | Option.none => Option.none
      | Option.none => Option.none
    | Option.none => Option.none
  | _ => Option.none

/-- Matching `(20\d{2})[-_](\d{2})[-_](\d{2})\b` at one position. -/
def attempt3 (l : List Char) : Option M3 :=
  match l with
  | '2' :: '0' :: rest =>
    match two rest with
    | some (yl, r1) =>
      reqSep dSeps r1 fun r2 =>
        match two r2 with
        | some (mo, r3) =>
          reqSep dSeps r3 fun r4 =>
            match two r4 with
            | some (d, r5) => if boundaryAfter r5 then some ⟨2000 + yl, mo, d⟩ else Option.none
            | Option.none => Option.none
        | Option.none => Option.none
    | Option.none => Option.none
  | _ => Option.none

/-- Leftmost-match scan of `String.prototype.match`: try every position in
order; a position qualifies only when the leading `\b` holds there, i.e. the
word-character status changes between the previous character (none at the start
of the string) and the current one. -/
def scanRe {α : Type} (att : List Char → Option α) : Bool → List Char → Option α
  | _, [] => Option.none
  | prevW, c :: rs =>
    if prevW = isWordChar c then scanRe att (isWordChar c) rs
    else
      match att (c :: rs) with
      | some m => some m
      | Option.none => scanRe att (isWordChar c) rs

def matchRe {α : Type} (att : List Char → Option α) (s : String) : Option α :=
  scanRe att false s.data

/-! ## JavaScript `Date` on the local clock

`new Date(y, mo, d, hh, mi, ss)` interprets its arguments on the local clock
and normalises out-of-range components by rollover (ECMA-262 MakeDay/MakeTime).
A date value is modelled by its local-clock milliseconds since the epoch; the
time value is NaN (modelled as `Option.none`) exactly when it exceeds the
8.64e15 range. -/

/-- Day number of a proleptic Gregorian civil date (1970-01-01 is day 0);
`m` is 1-based and must lie in `[1, 12]`. -/
def daysFromCivil (y m d : Int) : Int :=
  let y2 := if m ≤ 2 then y - 1 else y
  let era := y2 / 400
  let yoe := y2 - era * 400
  let mp := (m + 9) % 12
  let doy := (153 * mp + 2) / 5 + (d - 1)
  let doe := yoe * 365 + yoe / 4 - yoe / 100 + doy
  era * 146097 + doe - 719468

/-- Local-clock milliseconds of `new Date(y, m, d, hh, mi, ss)` with `m`
0-based, with the ECMAScript rollover normalisation of all components. -/
def jsLocalMs (y m d hh mi ss : Int) : Int :=
  let ym := y + m / 12
  let mn := m % 12
  (daysFromCivil ym (mn + 1) 1 + (d - 1)) * 86400000 + (hh * 3600000 + mi * 60000 + ss * 1000)

/-- `new Date(y, m, d, hh, mi, ss)` followed by the `isNaN` test: the date is
kept only if its time value is within the representable range. -/
def mkJsDate (y m d hh mi ss : Int) : Option Int :=
  let ms := jsLocalMs y m d hh mi ss
  if ms.natAbs ≤ 8640000000000000 then some ms else Option.none

/-- `getHours()`: ECMA-262 HourFromTime. -/
def jsHour (ms : Int) : Int := (ms / 3600000) % 24

/-- `getMinutes()`: ECMA-262 MinFromTime. -/
def jsMinute (ms : Int) : Int := (ms / 60000) % 60

/-- `getSeconds()`: ECMA-262 SecFromTime. -/
def jsSecond (ms : Int) : Int := (ms / 1000) % 60

/-- `guessDateFromFilename`: the three regexes are tried in order on the bare
filename; the matched components are fed to the `Date` constructor (date-only
patterns default the time to local noon), and the result is dropped only when
the constructed date is invalid. -/
def guessDateFromFilename (s : String) : Option Int :=
  match matchRe attempt1 s with
  | some m => mkJsDate (m.y : Int) ((m.mo : Int) - 1) (m.d : Int) (m.hh : Int) (m.mi : Int) (m.ss : Int)
  | Option.none =>
    match matchRe attempt2 s with
    | some m => mkJsDate (m.y : Int) ((m.mo : Int) - 1) (m.d : Int) 12 0 0
    | Option.none =>
      match matchRe attempt3 s with
      | some m => mkJsDate (m.y : Int) ((m.mo : Int) - 1) (m.d : Int) 12 0 0
      | Option.none => Option.none

/-! ## Embedded-metadata extraction (`exifDate`)

The exifr library is an external collaborator: its output for one file is an
oracle value.  A field picked from the metadata is either absent
(`undefined`, falsy), a valid `Date`, an invalid `Date` (truthy), or some
other truthy non-`Date` value.  `fs.readFile` or `exifParse` throwing is the
`failed` outcome; `exifParse` may also fulfil with `undefined`. -/

inductive ExifField where
  | missing
  | invalidDate
  | otherTruthy
  | validDate (ms : Int)
deriving DecidableEq

structure ExifData where
  dto : ExifField
  createDate : ExifField
  modifyDate : ExifField
deriving DecidableEq

inductive ExifOutcome where
  | failed
  | parsed (data : Option ExifData)
deriving DecidableEq

/-- JavaScript `a || b`: the left operand if truthy, otherwise the right. -/
def orTruthy (a b : ExifField) : ExifField :=
  match a with
  | .missing => b
  | f => f

/-- `exifDate`: `data?.DateTimeOriginal || data?.CreateDate || data?.ModifyDate`,
kept only if it is a `Date` and not NaN; every error path yields `null`. -/
def exifDate (r : ExifOutcome) : Option Int :=
  match r with
  | .failed => Option.none
  | .parsed Option.none => Option.none
  | .parsed (some data) =>
    match orTruthy data.dto (orTruthy data.createDate data.modifyDate) with
    | .validDate ms => some ms
    | _ => Option.none

/-- Modelled from the spec words, for comparison with `exifDate`: the first
syntactically valid date among the three fields wins. -/
def firstValidDate (data : ExifData) : Option Int :=
  match data.dto with
  | .validDate ms => some ms
  | _ =>
    match data.createDate with
    | .validDate ms => some ms
    | _ =>
      match data.modifyDate with
      | .validDate ms => some ms
      | _ => Option.none

/-- The first present (truthy) field among the three, in priority order; this
is what the `||` chain actually selects. -/
def firstPresentField (data : ExifData) : ExifField :=
  match data.dto with
  | .missing =>
    match data.createDate with
    | .missing => data.modifyDate
    | f => f
  | f => f

/-! ## The timestamp resolver (`getTakenAt`) and gallery entries -/

inductive Source where
  | exif
  | mtime
  | filename
  | none
deriving DecidableEq

/-- `path.basename`: the part of the path after the last slash. -/
def basename (s : String) : String :=
  ⟨s.data.foldl (fun acc c => if c = '/' then [] else acc ++ [c]) []⟩

def rootDirChars : List Char := "./images".data

def baseUrlChars : List Char := "./images".data

/-- `toPublicUrl`: `baseUrl` followed by the path relative to `rootDir` (the
walk only ever produces paths of the form `rootDir ++ "/" ++ rel`). -/
def toPublicUrl (p : String) : String :=
  ⟨baseUrlChars ++ '/' :: p.data.drop (rootDirChars.length + 1)⟩

/-- `toIsoUTC` followed by the reparse done by the sort comparator: the emitted
ISO string drops the fractional seconds, so the instant it encodes is the date
value truncated to whole seconds. -/
def toIsoUTC (ms : Int) : Int := ms / 1000 * 1000

/-- `getTakenAt`: the strict fallback chain.  The embedded-metadata and
stat-mtime results for a path are oracle inputs (`ex` and `mt`), each already
reduced to an optional valid date exactly as `exifDate` and `statMtime`
return them. -/
def getTakenAt (ex mt : String → Option Int) (p : String) : Option Int × Source :=
  match ex p with
  | some d => (some d, Source.exif)
  | Option.none =>
    match mt p with
    | some d => (some d, Source.mtime)
    | Option.none =>
      match guessDateFromFilename (basename p) with
      | some d => (some d, Source.filename)
      | Option.none => (Option.none, Source.none)

structure GalleryEntry where
  src : String
  takenAt : Option Int
  takenAtSource : Source
deriving DecidableEq

/-- The record built by the `mapLimit` worker in `main` for one file. -/
def entryOf (ex mt : String → Option Int) (p : String) : GalleryEntry :=
  let r := getTakenAt ex mt p
  ⟨toPublicUrl p, r.1.map toIsoUTC, r.2⟩

/-- JavaScript string comparison `a < b`: lexicographic on the code units. -/
def charListLt : List Char → List Char → Bool
  | [], [] => false
  | [], _ :: _ => true
  | _ :: _, [] => false
  | a :: as, b :: bs =>
    if a.toNat < b.toNat then true
    else if b.toNat < a.toNat then false
    else charListLt as bs

def strLt (a b : String) : Bool := charListLt a.data b.data

/-- The sort comparator of `main`: timestamps descending, `null`s last,
tie-break by `src` descending. -/
def cmpEntries (a b : GalleryEntry) : Int :=
  match a.takenAt, b.takenAt with
  | some da, some db => db - da
  | some _, Option.none => -1
  | Option.none, some _ => 1
  | Option.none, Option.none =>
    if strLt a.src b.src then 1 else if strLt b.src a.src then -1 else 0

def entryLe (a b : GalleryEntry) : Prop := cmpEntries a b ≤ 0

instance : DecidableRel entryLe := fun a b =>
  (Int.decLe (cmpEntries a b) 0 : Decidable (cmpEntries a b ≤ 0))

/-- `list.sort(comparator)`: ECMAScript requires a stable sort that is sorted
with respect to a consistent comparator, which `cmpEntries` is; it is modelled
by a stable insertion sort ordered by `cmpEntries _ _ ≤ 0`. -/
def sortEntries (l : List GalleryEntry) : List GalleryEntry :=
  List.insertionSort entryLe l

/-- An oracle for a source that never yields a date. -/
def noSource : String → Option Int := fun _ => Option.none

/-! ## Order properties of the comparator -/

theorem charToNat_inj {a b : Char} (h : a.toNat = b.toNat) : a = b :=
  Char.ext (UInt32.ext_iff.mpr h)

theorem charListLt_asymm : ∀ as bs, charListLt as bs = true → charListLt bs as = false := by
  intro as
  induction as with
  | nil =>
    intro bs h
    cases bs with
    | nil => simp [charListLt] at h
    | cons b bs => simp [charListLt]
  | cons a as ih =>
    intro bs h
    cases bs with
    | nil => simp [charListLt] at h
    | cons b bs =>
      simp only [charListLt] at h ⊢
      by_cases h1 : a.toNat < b.toNat
      · rw [if_neg (by omega), if_pos h1]
      · by_cases h2 : b.toNat < a.toNat
        · rw [if_neg h1, if_pos h2] at h
          exact absurd h (by simp)
        · rw [if_neg h1, if_neg h2] at h
          rw [if_neg h2, if_neg h1]
          exact ih bs h

theorem charListLt_trans :
    ∀ as bs cs, charListLt as bs = true → charListLt bs cs = true →
      charListLt as cs = true := by
  intro as
  induction as with
  | nil =>
    intro bs cs h1 h2
    cases cs with
    | nil => cases bs <;> simp [charListLt] at h1 h2
    | cons c cs => simp [charListLt]
  | cons a as ih =>
    intro bs cs h1 h2
    cases bs with
    | nil => simp [charListLt] at h1
    | cons b bs =>
      cases cs with
      | nil => simp [charListLt] at h2
      | cons c cs =>
        simp only [charListLt] at h1 h2 ⊢
        by_cases hab : a.toNat < b.toNat
        · by_cases hbc : b.toNat < c.toNat
          · rw [if_pos (by omega)]
          · by_cases hcb : c.toNat < b.toNat
            · rw [if_neg hbc, if_pos hcb] at h2
              exact absurd h2 (by simp)
            · rw [if_pos (by omega)]
        · by_cases hba : b.toNat < a.toNat
          · rw [if_neg hab, if_pos hba] at h1
            exact absurd h1 (by simp)
          · by_cases hbc : b.toNat < c.toNat
            · rw [if_pos (by omega)]
            · by_cases hcb : c.toNat < b.toNat
              · rw [if_neg hbc, if_pos hcb] at h2
                exact absurd h2 (by simp)
              · rw [if_neg hab, if_neg hba] at h1
                rw [if_neg hbc, if_neg hcb] at h2
                rw [if_neg (by omega), if_neg (by omega)]
                exact ih bs cs h1 h2

theorem charListLt_eq_of_not :
    ∀ as bs, charListLt as bs = false → charListLt bs as = false → as = bs := by
  intro as
  induction as with
  | nil =>
    intro bs h1 _
    cases bs with
    | nil => rfl
    | cons b bs => simp [charListLt] at h1
  | cons a as ih =>
    intro bs h1 h2
    cases bs with
    | nil => simp [charListLt] at h2
    | cons b bs =>
      simp only [charListLt] at h1 h2
      by_cases hab : a.toNat < b.toNat
      · rw [if_pos hab] at h1
        exact absurd h1 (by simp)
      · by_cases hba : b.toNat < a.toNat
        · rw [if_pos hba] at h2
          exact absurd h2 (by simp)
        · rw [if_neg hab, if_neg hba] at h1
          rw [if_neg hba, if_neg hab] at h2
          rw [charToNat_inj (by omega : a.toNat = b.toNat), ih bs h1 h2]

theorem strLt_asymm {a b : String} (h : strLt a b = true) : strLt b a = false :=
  charListLt_asymm _ _ h

theorem strLt_trans {a b c : String} (h1 : strLt a b = true) (h2 : strLt b c = true) :
    strLt a c = true :=
  charListLt_trans _ _ _ h1 h2

theorem strLt_eq_of_not {a b : String} (h1 : strLt a b = false) (h2 : strLt b a = false) :
    a = b := by
  cases a; cases b
  exact congrArg String.mk (charListLt_eq_of_not _ _ h1 h2)

theorem cmpEntries_ss {a b : GalleryEntry} {x y : Int}
    (ha : a.takenAt = some x) (hb : b.takenAt = some y) : cmpEntries a b = y - x := by
  simp [cmpEntries, ha, hb]

theorem cmpEntries_sn {a b : GalleryEntry} {x : Int}
    (ha : a.takenAt = some x) (hb : b.takenAt = Option.none) : cmpEntries a b = -1 := by
  simp [cmpEntries, ha, hb]

theorem cmpEntries_ns {a b : GalleryEntry} {y : Int}
    (ha : a.takenAt = Option.none) (hb : b.takenAt = some y) : cmpEntries a b = 1 := by
  simp [cmpEntries, ha, hb]

theorem cmpEntries_nn {a b : GalleryEntry}
    (ha : a.takenAt = Option.none) (hb : b.takenAt = Option.none) :
    cmpEntries a b = if strLt a.src b.src then 1 else if strLt b.src a.src then -1 else 0 := by
  simp [cmpEntries, ha, hb]

instance : IsTotal GalleryEntry entryLe := by
  constructor
  intro a b
  unfold entryLe
  rcases ha : a.takenAt with _ | x <;> rcases hb : b.takenAt with _ | y
  · rw [cmpEntries_nn ha hb, cmpEntries_nn hb ha]
    by_cases h : strLt a.src b.src = true
    · right
      rw [if_neg (by simp [strLt_asymm h]), if_pos h]
      omega
    · left
      rw [if_neg h]
      split <;> omega
  · right
    rw [cmpEntries_sn hb ha]
    omega
  · left
    rw [cmpEntries_sn ha hb]
    omega
  · rw [cmpEntries_ss ha hb, cmpEntries_ss hb ha]
    omega

instance : IsTrans GalleryEntry entryLe := by
  constructor
  intro a b c hab hbc
  unfold entryLe at hab hbc ⊢
  rcases ha : a.takenAt with _ | x <;> rcases hb : b.takenAt with _ | y <;>
    rcases hc : c.takenAt with _ | z
  · -- all none
    rw [cmpEntries_nn ha hb] at hab
    rw [cmpEntries_nn hb hc] at hbc
    rw [cmpEntries_nn ha hc]
    have hab2 : strLt a.src b.src = false := by
      by_cases h : strLt a.src b.src = true
      · rw [if_pos h] at hab; omega
      · simpa using h
    have hbc2 : strLt b.src c.src = false := by
      by_cases h : strLt b.src c.src = true
      · rw [if_pos h] at hbc; omega
      · simpa using h
    have hac : strLt a.src c.src = false := by
      by_cases h : strLt a.src c.src = true
      · by_cases hba : strLt b.src a.src = true
        · exact absurd (strLt_trans hba h) (by simp [hbc2])
        · have hba2 : strLt b.src a.src = false := by simpa using hba
          have heq : a.src = b.src := strLt_eq_of_not hab2 hba2
          rw [heq] at h
          simp [h] at hbc2
      · simpa using h
    rw [if_neg (by simp [hac])]
    split <;> omega
  · -- a none, b none, c some: hbc is 1 ≤ 0
    rw [cmpEntries_ns hb hc] at hbc
    omega
  · -- a none, b some: hab is 1 ≤ 0
    rw [cmpEntries_ns ha hb] at hab
    omega
  · rw [cmpEntries_ns ha hb] at hab
    omega
  · rw [cmpEntries_sn ha hc]
    omega
  · rw [cmpEntries_ns hb hc] at hbc
    omega
  · rw [cmpEntries_sn ha hc]
    omega
  · rw [cmpEntries_ss ha hb] at hab
    rw [cmpEntries_ss hb hc] at hbc
    rw [cmpEntries_ss ha hc]
    omega

/-- The relation the spec describes between an earlier and a later entry of the
sorted manifest. -/
def sortRelSpec (a b : GalleryEntry) : Prop :=
  (b.takenAt.isSome → a.takenAt.isSome) ∧
  (∀ x y, a.takenAt = some x → b.takenAt = some y → y ≤ x) ∧
  (a.takenAt = Option.none → b.takenAt = Option.none → strLt a.src b.src = false)

theorem entryLe_sortRelSpec {a b : GalleryEntry} (h : entryLe a b) : sortRelSpec a b := by
  obtain ⟨sa, ta, ka⟩ := a
  obtain ⟨sb, tb, kb⟩ := b
  unfold entryLe at h
  unfold sortRelSpec
  rcases ta with _ | x <;> rcases tb with _ | y <;> simp only [cmpEntries] at h ⊢
  · refine ⟨by simp, by simp, fun _ _ => ?_⟩
    by_cases hlt : strLt sa sb = true
    · rw [if_pos hlt] at h
      exfalso
      omega
    · simpa using hlt
  · exfalso
    omega
  · exact ⟨by simp, by simp, by simp⟩
  · refine ⟨by simp, ?_, by simp⟩
    intro u v hu hv
    injection hu with hu
    injection hv with hv
    omega

/-! ## Claim theorems about the resolver, the sort and the filename heuristic -/

/-- C1: for every file, the timestamp resolver produces exactly one resolved
timestamp by trying the sources in strict order exif metadata, then filesystem
mtime, then filename heuristic, then absent; the first source yielding a valid
date is used and its identity is recorded as the source of the result. -/
theorem c1_resolver_chain (ex mt : String → Option Int) (p : String) :
    (∀ d, ex p = some d → getTakenAt ex mt p = (some d, Source.exif)) ∧
    (∀ d, ex p = Option.none → mt p = some d →
      getTakenAt ex mt p = (some d, Source.mtime)) ∧
    (∀ d, ex p = Option.none → mt p = Option.none →
      guessDateFromFilename (basename p) = some d →
      getTakenAt ex mt p = (some d, Source.filename)) ∧
    (ex p = Option.none → mt p = Option.none →
      guessDateFromFilename (basename p) = Option.none →
      getTakenAt ex mt p = (Option.none, Source.none)) := by
  refine ⟨?_, ?_, ?_, ?_⟩
  · intro d hex
    simp [getTakenAt, hex]
  · intro d hex hmt
    simp [getTakenAt, hex, hmt]
  · intro d hex hmt hfn
    simp [getTakenAt, hex, hmt, hfn]
  · intro hex hmt hfn
    simp [getTakenAt, hex, hmt, hfn]

theorem c1_resolver_chain_witness :
    getTakenAt (fun _ => some 5) noSource "photo.jpg" = (some 5, Source.exif) ∧
    getTakenAt noSource noSource "photo.jpg" = (Option.none, Source.none) :=
  ⟨(c1_resolver_chain (fun _ => some 5) noSource "photo.jpg").1 5 rfl,
   (c1_resolver_chain noSource noSource "photo.jpg").2.2.2 rfl rfl (by decide)⟩

/-- C3: in the sorted manifest any timestamped entry precedes every
untimestamped one, two timestamped entries are ordered by timestamp
descending, two untimestamped entries are ordered by public URL descending;
in particular the untimestamped inputs a.jpg and b.jpg come out with b.jpg
first. -/
theorem c3_sort_contract :
    (∀ l : List GalleryEntry, (sortEntries l).Pairwise sortRelSpec) ∧
    sortEntries [entryOf noSource noSource "./images/a.jpg",
        entryOf noSource noSource "./images/b.jpg"] =
      [⟨"./images/b.jpg", Option.none, Source.none⟩,
       ⟨"./images/a.jpg", Option.none, Source.none⟩] := by
  constructor
  · intro l
    exact List.Pairwise.imp (fun h => entryLe_sortRelSpec h)
      (List.sorted_insertionSort entryLe l)
  · decide

/-- C4: the claim says a filename whose matched components are not a valid
calendar date, such as 2024-13-40, makes the heuristic return absent.  The
code instead feeds month 13 and day 40 to the Date constructor, which rolls
them over to 2025-02-09, and the isNaN guard cannot reject the rolled-over
date, so a timestamp (local noon of 2025-02-09) is produced. -/
theorem c4_invalid_date_rollover :
    guessDateFromFilename "2024-13-40.jpg" = some 1739102400000 ∧
    daysFromCivil 2025 2 9 * 86400000 + 12 * 3600000 = 1739102400000 ∧
    jsHour 1739102400000 = 12 := by
  refine ⟨by decide, by decide, by decide⟩

/-- C5: the claim says IMG_20240905_142231.jpg yields 2024-09-05T14:22:31 from
the full date-time pattern.  Because the underscore is a word character, the
leading word boundary of every pattern fails inside IMG_20240905_142231, so
the heuristic returns null for this name; stripping the IMG_ prefix makes the
full date-time pattern match as documented. -/
theorem c5_word_boundary_blocks_match :
    guessDateFromFilename "IMG_20240905_142231.jpg" = Option.none ∧
    guessDateFromFilename "20240905_142231.jpg" =
      some (daysFromCivil 2024 9 5 * 86400000 +
        (14 * 3600000 + 22 * 60000 + 31 * 1000)) := by
  refine ⟨by decide, by decide⟩

/-- C8 counterexample: when the first present metadata field holds an invalid
date and a later field holds a valid one, the spec says the valid later field
wins, but the code selects the first truthy field and then discards
everything because it fails the isNaN check. -/
theorem c8_counterexample :
    firstValidDate ⟨ExifField.invalidDate, ExifField.validDate 0, ExifField.missing⟩ =
      some 0 ∧
    exifDate (ExifOutcome.parsed
      (some ⟨ExifField.invalidDate, ExifField.validDate 0, ExifField.missing⟩)) =
      Option.none :=
  ⟨rfl, rfl⟩

/-- C8 amended: the extractor tries DateTimeOriginal, CreateDate, ModifyDate in
that priority order and selects the first present (truthy) field; that field
wins only when it is a syntactically valid date, otherwise the extractor
returns no embedded timestamp without considering later fields; any parse
failure, missing metadata or corrupt file also returns no embedded timestamp
rather than propagating an error. -/
theorem c8_first_present_field_wins :
    (∀ data : ExifData, ∀ ms : Int,
      firstPresentField data = ExifField.validDate ms →
      exifDate (ExifOutcome.parsed (some data)) = some ms) ∧
    (∀ data : ExifData,
      (∀ ms : Int, firstPresentField data ≠ ExifField.validDate ms) →
      exifDate (ExifOutcome.parsed (some data)) = Option.none) ∧
    exifDate ExifOutcome.failed = Option.none ∧
    exifDate (ExifOutcome.parsed Option.none) = Option.none := by
  refine ⟨?_, ?_, rfl, rfl⟩
  · rintro ⟨f1, f2, f3⟩ ms h
    cases f1 <;> cases f2 <;> cases f3 <;>
      simp_all [firstPresentField, exifDate, orTruthy]
  · rintro ⟨f1, f2, f3⟩ h
    cases f1 <;> cases f2 <;> cases f3 <;>
      simp_all [firstPresentField, exifDate, orTruthy]

/-! ## Noon default for the date-only patterns (C6) -/

theorem two_bound {l : List Char} {v : Nat} {r : List Char} (h : two l = some (v, r)) :
    v ≤ 99 := by
  match l with
  | [] => simp [two] at h
  | [c] => simp [two] at h
  | c1 :: c2 :: rest =>
    simp only [two] at h
    split at h
    · rename_i hd
      simp only [Bool.and_eq_true, isDigitChar, decide_eq_true_eq] at hd
      simp only [Option.some.injEq, Prod.mk.injEq] at h
      obtain ⟨hv, _⟩ := h
      subst hv
      unfold digitVal
      omega
    · cases h

theorem reqSep_some {α : Type} {seps l : List Char} {k : List Char → Option α} {m : α}
    (h : reqSep seps l k = some m) : ∃ r, k r = some m := by
  match l with
  | [] => simp [reqSep] at h
  | c :: rs =>
    simp only [reqSep] at h
    split at h
    · exact ⟨rs, h⟩
    · cases h

theorem attempt2_bounds {l : List Char} {m : M3} (h : attempt2 l = some m) :
    2000 ≤ m.y ∧ m.y ≤ 2099 ∧ m.mo ≤ 99 ∧ m.d ≤ 99 := by
  unfold attempt2 at h
  split at h
  · split at h
    · rename_i yl r1 h1
      split at h
      · rename_i mo r2 h2
        split at h
        · rename_i d r3 h3
          split at h
          · injection h with h
            subst h
            have b1 := two_bound h1
            have b2 := two_bound h2
            have b3 := two_bound h3
            refine ⟨?_, ?_, ?_, ?_⟩
            · show 2000 ≤ 2000 + yl
              omega
            · show 2000 + yl ≤ 2099
              omega
            · show mo ≤ 99
              omega
            · show d ≤ 99
              omega
          · cases h
        · cases h
      · cases h
    · cases h
  · cases h

theorem attempt3_bounds {l : List Char} {m : M3} (h : attempt3 l = some m) :
    2000 ≤ m.y ∧ m.y ≤ 2099 ∧ m.mo ≤ 99 ∧ m.d ≤ 99 := by
  unfold attempt3 at h
  split at h
  · split at h
    · rename_i yl r1 h1
      obtain ⟨r2, h⟩ := reqSep_some h
      split at h
      · rename_i mo r3 h2
        obtain ⟨r4, h⟩ := reqSep_some h
        split at h
        · rename_i d r5 h3
          split at h
          · injection h with h
            subst h
            have b1 := two_bound h1
            have b2 := two_bound h2
            have b3 := two_bound h3
            refine ⟨?_, ?_, ?_, ?_⟩
            · show 2000 ≤ 2000 + yl
              omega
            · show 2000 + yl ≤ 2099
              omega
            · show mo ≤ 99
              omega
            · show d ≤ 99
              omega
          · cases h
        · cases h
      · cases h
    · cases h
  · cases h

theorem scanRe_some {α : Type} {att : List Char → Option α} :
    ∀ {b : Bool} {l : List Char} {m : α}, scanRe att b l = some m →
      ∃ suffix, att suffix = some m := by
  intro b l
  induction l generalizing b with
  | nil =>
    intro m h
    simp [scanRe] at h
  | cons c rs ih =>
    intro m h
    simp only [scanRe] at h
    split at h
    · exact ih h
    · rcases hatt : att (c :: rs) with _ | m2 <;> rw [hatt] at h
      · exact ih h
      · injection h with h
        subst h
        exact ⟨c :: rs, hatt⟩

theorem matchRe_some {α : Type} {att : List Char → Option α} {s : String} {m : α}
    (h : matchRe att s = some m) : ∃ suffix, att suffix = some m :=
  scanRe_some h

/-- Constructing a date at local noon from in-range year and two-digit month
and day components always succeeds, and its local time of day is exactly
12:00:00 whatever rollover the month and day cause. -/
theorem mkJsDate_noon {y m d : Int} (hy1 : 2000 ≤ y) (hy2 : y ≤ 2099) (hm1 : -1 ≤ m)
    (hm2 : m ≤ 98) (hd1 : 0 ≤ d) (hd2 : d ≤ 99) :
    ∃ ms, mkJsDate y m d 12 0 0 = some ms ∧
      jsHour ms = 12 ∧ jsMinute ms = 0 ∧ jsSecond ms = 0 := by
  have hbound : (jsLocalMs y m d 12 0 0).natAbs ≤ 8640000000000000 := by
    simp only [jsLocalMs, daysFromCivil]
    split_ifs <;> omega
  refine ⟨jsLocalMs y m d 12 0 0, ?_, ?_, ?_, ?_⟩
  · unfold mkJsDate
    rw [if_pos hbound]
  · simp only [jsHour, jsLocalMs]
    omega
  · simp only [jsMinute, jsLocalMs]
    omega
  · simp only [jsSecond, jsLocalMs]
    omega

/-- C6: a filename matching one of the two date-only patterns while the full
date-time pattern does not match yields a timestamp whose local time of day
is exactly 12:00:00. -/
theorem c6_noon_default (s : String) (h1 : matchRe attempt1 s = Option.none)
    (h2 : (matchRe attempt2 s).isSome = true ∨ (matchRe attempt3 s).isSome = true) :
    ∃ ms, guessDateFromFilename s = some ms ∧
      jsHour ms = 12 ∧ jsMinute ms = 0 ∧ jsSecond ms = 0 := by
  unfold guessDateFromFilename
  rw [h1]
  rcases hm2 : matchRe attempt2 s with _ | m2
  · rcases hm3 : matchRe attempt3 s with _ | m3
    · rw [hm2, hm3] at h2
      simp at h2
    · obtain ⟨suf, hs⟩ := matchRe_some hm3
      obtain ⟨hb1, hb2, hb3, hb4⟩ := attempt3_bounds hs
      exact mkJsDate_noon (by omega) (by omega) (by omega) (by omega) (by omega) (by omega)
  · obtain ⟨suf, hs⟩ := matchRe_some hm2
    obtain ⟨hb1, hb2, hb3, hb4⟩ := attempt2_bounds hs
    exact mkJsDate_noon (by omega) (by omega) (by omega) (by omega) (by omega) (by omega)

theorem c6_noon_default_witness :
    ∃ ms, guessDateFromFilename "2024-09-05.jpg" = some ms ∧
      jsHour ms = 12 ∧ jsMinute ms = 0 ∧ jsSecond ms = 0 :=
  c6_noon_default "2024-09-05.jpg" (by decide) (Or.inr (by decide))

theorem c8_first_present_field_wins_witness :
    exifDate (ExifOutcome.parsed
      (some ⟨ExifField.missing, ExifField.validDate 7, ExifField.otherTruthy⟩)) =
      some 7 :=
  c8_first_present_field_wins.1
    ⟨ExifField.missing, ExifField.validDate 7, ExifField.otherTruthy⟩ 7 rfl

/-! ## The concurrency limiter `mapLimit`

`mapLimit` is modelled as a transition system.  A state records the next index
to hand out (`idx`), the indices currently in flight, the results array (a
slot is `Option.none` until its worker settles, then stores the settled
outcome), and the argument of `resolve` once it has been called.  `w i` is
the settled outcome of `Promise.resolve(worker(items[i], i))` — for the
faithful instantiation `β` is itself an `Option`, whose `none` is the `null`
written by the `catch` handler.  The synchronous `while` loop of `next()` is
deterministic; which in-flight worker settles next is not, so settling is a
nondeterministic step relation. -/

structure SchedState (β : Type) where
  idx : Nat
  inFlight : List Nat
  results : List (Option β)
  resolvedVal : Option (List (Option β))

/-- The `while` loop of `next()` with explicit fuel.  The fuel `len - idx`
used by `launchLoop` dominates the number of admissible items, so when the
fuel runs out the loop condition is false anyway and the fuel-free loop is
reproduced exactly. -/
def launchAux (limit len : Nat) : Nat → Nat → List Nat → Nat × List Nat
  | 0, idx, fl => (idx, fl)
  | fuel + 1, idx, fl =>
    if fl.length < limit ∧ idx < len then launchAux limit len fuel (idx + 1) (fl ++ [idx])
    else (idx, fl)

/-- `next()`: admit new work while fewer than `limit` tasks are active and
unstarted items remain. -/
def launchLoop (limit len idx : Nat) (fl : List Nat) : Nat × List Nat :=
  launchAux limit len (len - idx) idx fl

/-- The state right after `mapLimit` allocates `results` and runs `next()`
once. -/
def initState (β : Type) (len limit : Nat) : SchedState β :=
  ⟨(launchLoop limit len 0 []).1, (launchLoop limit len 0 []).2,
    List.replicate len Option.none, Option.none⟩

/-- The settling of worker `i`: store the outcome at index `i`, decrement the
active count, then either resolve (everything admitted and nothing left in
flight) or run `next()` again. -/
def stepResult {β : Type} (len limit : Nat) (w : Nat → β) (s : SchedState β) (i : Nat) :
    SchedState β :=
  if len ≤ s.idx ∧ s.inFlight.erase i = [] then
    ⟨s.idx, s.inFlight.erase i, s.results.set i (some (w i)),
      some (s.results.set i (some (w i)))⟩
  else
    ⟨(launchLoop limit len s.idx (s.inFlight.erase i)).1,
      (launchLoop limit len s.idx (s.inFlight.erase i)).2,
      s.results.set i (some (w i)), Option.none⟩

inductive SchedStep {β : Type} (len limit : Nat) (w : Nat → β) :
    SchedState β → SchedState β → Prop where
  | complete (s : SchedState β) (i : Nat) (hi : i ∈ s.inFlight)
      (hr : s.resolvedVal = Option.none) :
      SchedStep len limit w s (stepResult len limit w s i)

def SchedReach {β : Type} (len limit : Nat) (w : Nat → β) (s : SchedState β) : Prop :=
  Relation.ReflTransGen (SchedStep len limit w) (initState β len limit) s

/-- The functional shape of the results array: slot `j` holds the outcome of
worker `j` exactly when `j` has been admitted and is no longer in flight. -/
def resultsSpec (β : Type) (len : Nat) (w : Nat → β) (idx : Nat) (fl : List Nat) :
    List (Option β) :=
  (List.range len).map fun j => if j < idx ∧ j ∉ fl then some (w j) else Option.none

structure SchedInv {β : Type} (len limit : Nat) (w : Nat → β) (s : SchedState β) :
    Prop where
  hres : s.results = resultsSpec β len w s.idx s.inFlight
  hidx : s.idx ≤ len
  hmem : ∀ i ∈ s.inFlight, i < s.idx
  hnd : s.inFlight.Nodup
  hrv : s.resolvedVal = Option.none ∨
    (s.idx = len ∧ s.inFlight = [] ∧ s.resolvedVal = some s.results)

theorem launchAux_spec (limit len : Nat) :
    ∀ fuel idx fl,
      idx ≤ (launchAux limit len fuel idx fl).1 ∧
      (idx ≤ len → (launchAux limit len fuel idx fl).1 ≤ len) ∧
      (launchAux limit len fuel idx fl).2 =
        fl ++ List.range' idx ((launchAux limit len fuel idx fl).1 - idx) := by
  intro fuel
  induction fuel with
  | zero =>
    intro idx fl
    simp [launchAux]
  | succ fuel ih =>
    intro idx fl
    by_cases hcond : fl.length < limit ∧ idx < len
    · simp only [launchAux, if_pos hcond]
      obtain ⟨h1, h2, h3⟩ := ih (idx + 1) (fl ++ [idx])
      refine ⟨by omega, fun hle => h2 (by omega), ?_⟩
      rw [h3, List.append_assoc]
      congr 1
      have heq : (launchAux limit len fuel (idx + 1) (fl ++ [idx])).1 - idx =
          ((launchAux limit len fuel (idx + 1) (fl ++ [idx])).1 - (idx + 1)) + 1 := by
        omega
      rw [heq, List.range'_succ]
      rfl
    · simp [launchAux, if_neg hcond]

theorem launchLoop_spec (limit len idx : Nat) (fl : List Nat) :
    idx ≤ (launchLoop limit len idx fl).1 ∧
    (idx ≤ len → (launchLoop limit len idx fl).1 ≤ len) ∧
    (launchLoop limit len idx fl).2 =
      fl ++ List.range' idx ((launchLoop limit len idx fl).1 - idx) :=
  launchAux_spec limit len (len - idx) idx fl

theorem launchLoop_mem (limit len idx : Nat) (fl : List Nat) (j : Nat) :
    j ∈ (launchLoop limit len idx fl).2 ↔
      j ∈ fl ∨ (idx ≤ j ∧ j < (launchLoop limit len idx fl).1) := by
  obtain ⟨h1, _, h3⟩ := launchLoop_spec limit len idx fl
  rw [h3, List.mem_append, List.mem_range'_1]
  constructor
  · rintro (h | h)
    · exact Or.inl h
    · right
      omega
  · rintro (h | h)
    · exact Or.inl h
    · right
      omega

theorem launchLoop_nodup (limit len idx : Nat) (fl : List Nat) (hnd : fl.Nodup)
    (hmem : ∀ i ∈ fl, i < idx) : (launchLoop limit len idx fl).2.Nodup := by
  obtain ⟨h1, _, h3⟩ := launchLoop_spec limit len idx fl
  rw [h3, List.nodup_append]
  refine ⟨hnd, List.nodup_range' _ _ 1 (by omega), ?_⟩
  intro a ha ha2
  have hb1 := hmem a ha
  have hb2 := List.mem_range'_1.mp ha2
  omega

theorem resultsSpec_getElem {β : Type} {len : Nat} {w : Nat → β} {idx : Nat}
    {fl : List Nat} {j : Nat} (h : j < (resultsSpec β len w idx fl).length) :
    (resultsSpec β len w idx fl)[j] =
      if j < idx ∧ j ∉ fl then some (w j) else Option.none := by
  simp [resultsSpec]

theorem resultsSpec_congr {β : Type} {len : Nat} {w : Nat → β} {idx idx2 : Nat}
    {fl fl2 : List Nat}
    (h : ∀ j, j < len → ((j < idx ∧ j ∉ fl) ↔ (j < idx2 ∧ j ∉ fl2))) :
    resultsSpec β len w idx fl = resultsSpec β len w idx2 fl2 := by
  unfold resultsSpec
  apply List.map_congr_left
  intro j hj
  exact if_congr (h j (List.mem_range.mp hj)) rfl rfl

theorem resultsSpec_set {β : Type} {len : Nat} (w : Nat → β) {idx : Nat} {fl : List Nat}
    (hnd : fl.Nodup) {i : Nat} (_hi : i ∈ fl) (hlt : i < idx) :
    (resultsSpec β len w idx fl).set i (some (w i)) =
      resultsSpec β len w idx (fl.erase i) := by
  apply List.ext_getElem
  · simp [resultsSpec]
  · intro j h1 h2
    simp only [resultsSpec, List.getElem_set, List.getElem_map, List.getElem_range]
    have hiff : j ∈ fl.erase i ↔ j ≠ i ∧ j ∈ fl := hnd.mem_erase_iff
    by_cases hij : i = j
    · subst hij
      rw [if_pos rfl, if_pos ⟨hlt, fun hmem => (hiff.mp hmem).1 rfl⟩]
    · rw [if_neg hij]
      have hiff2 : j ∈ fl.erase i ↔ j ∈ fl := by
        rw [hiff]
        constructor
        · exact fun h => h.2
        · exact fun h => ⟨fun he => hij he.symm, h⟩
      by_cases hcond : j < idx ∧ j ∉ fl
      · rw [if_pos hcond, if_pos ⟨hcond.1, by rw [hiff2]; exact hcond.2⟩]
      · rw [if_neg hcond, if_neg ?_]
        rintro ⟨ha, hb⟩
        rw [hiff2] at hb
        exact hcond ⟨ha, hb⟩

theorem resultsSpec_launch {β : Type} {len limit : Nat} {w : Nat → β} {idx : Nat}
    {fl : List Nat} (_hmem : ∀ i ∈ fl, i < idx) :
    resultsSpec β len w idx fl =
      resultsSpec β len w (launchLoop limit len idx fl).1 (launchLoop limit len idx fl).2 := by
  obtain ⟨h1, _, _⟩ := launchLoop_spec limit len idx fl
  apply resultsSpec_congr
  intro j hj
  rw [launchLoop_mem]
  constructor
  · rintro ⟨hji, hjf⟩
    refine ⟨by omega, ?_⟩
    rintro (hin | hin)
    · exact hjf hin
    · omega
  · rintro ⟨hjr, hjf⟩
    constructor
    · by_contra hge
      exact hjf (Or.inr ⟨by omega, hjr⟩)
    · intro hin
      exact hjf (Or.inl hin)

theorem init_inv {β : Type} (len limit : Nat) (w : Nat → β) :
    SchedInv len limit w (initState β len limit) := by
  obtain ⟨h1, h2, h3⟩ := launchLoop_spec limit len 0 []
  unfold initState
  constructor
  · apply List.ext_getElem
    · simp [resultsSpec]
    · intro j hj1 hj2
      rw [List.getElem_replicate, resultsSpec_getElem hj2]
      rw [if_neg]
      rintro ⟨hlt, hnin⟩
      exact hnin ((launchLoop_mem limit len 0 [] j).mpr (Or.inr ⟨Nat.zero_le _, hlt⟩))
  · exact h2 (Nat.zero_le len)
  · intro i hi
    show i < (launchLoop limit len 0 []).1
    rw [h3] at hi
    simp only [List.nil_append, List.mem_range'_1] at hi
    omega
  · exact launchLoop_nodup limit len 0 [] List.nodup_nil (fun i hi => absurd hi
      (List.not_mem_nil i))
  · left
    rfl

theorem step_inv {β : Type} {len limit : Nat} {w : Nat → β} {s : SchedState β} {i : Nat}
    (inv : SchedInv len limit w s) (hi : i ∈ s.inFlight) :
    SchedInv len limit w (stepResult len limit w s i) := by
  have hlt : i < s.idx := inv.hmem i hi
  have hset : s.results.set i (some (w i)) =
      resultsSpec β len w s.idx (s.inFlight.erase i) := by
    rw [inv.hres]
    exact resultsSpec_set w inv.hnd hi hlt
  have hmem2 : ∀ j ∈ s.inFlight.erase i, j < s.idx :=
    fun j hj => inv.hmem j (List.mem_of_mem_erase hj)
  unfold stepResult
  by_cases hc : len ≤ s.idx ∧ s.inFlight.erase i = []
  · rw [if_pos hc]
    refine ⟨hset, inv.hidx, ?_, ?_, ?_⟩
    · intro j hj
      rw [hc.2] at hj
      exact absurd hj (List.not_mem_nil j)
    · rw [hc.2]
      exact List.nodup_nil
    · right
      have h4 := inv.hidx
      refine ⟨?_, hc.2, rfl⟩
      show s.idx = len
      omega
  · rw [if_neg hc]
    obtain ⟨g1, g2, g3⟩ := launchLoop_spec limit len s.idx (s.inFlight.erase i)
    refine ⟨?_, ?_, ?_, ?_, ?_⟩
    · rw [hset]
      exact resultsSpec_launch hmem2
    · exact g2 inv.hidx
    · intro j hj
      show j < (launchLoop limit len s.idx (s.inFlight.erase i)).1
      rcases (launchLoop_mem limit len s.idx (s.inFlight.erase i) j).mp hj with h | h
      · have h4 := hmem2 j h
        have h5 := (launchLoop_spec limit len s.idx (s.inFlight.erase i)).1
        omega
      · exact h.2
    · exact launchLoop_nodup limit len s.idx (s.inFlight.erase i) (inv.hnd.erase i) hmem2
    · left
      rfl

theorem sched_inv {β : Type} {len limit : Nat} {w : Nat → β} {s : SchedState β}
    (h : SchedReach len limit w s) : SchedInv len limit w s := by
  induction h with
  | refl => exact init_inv len limit w
  | tail hab hstep ih =>
    cases hstep with
    | complete i hi hr => exact step_inv ih hi

/-- Any run of the limiter that reaches a resolved state has stored, at every
index `i`, exactly the settled outcome of worker `i`. -/
theorem sched_resolved_eq {β : Type} {len limit : Nat} {w : Nat → β} {s : SchedState β}
    (h : SchedReach len limit w s) {r : List (Option β)} (hres : s.resolvedVal = some r) :
    r = (List.range len).map (fun i => some (w i)) := by
  have inv := sched_inv h
  rcases inv.hrv with h0 | ⟨hlen, hfl, hval⟩
  · rw [h0] at hres
    cases hres
  · rw [hval] at hres
    injection hres with hres
    subst hres
    rw [inv.hres, hlen, hfl]
    unfold resultsSpec
    apply List.map_congr_left
    intro j hj
    rw [if_pos ⟨List.mem_range.mp hj, by simp⟩]

/-- With an empty item list the admission loop admits nothing, no completion
callback can ever fire, and `resolve` is never called. -/
theorem sched_empty {β : Type} (limit : Nat) (w : Nat → β) :
    ∀ s : SchedState β, SchedReach 0 limit w s → s.resolvedVal = Option.none := by
  intro s h
  induction h with
  | refl => rfl
  | tail hab hstep ih =>
    cases hstep with
    | complete i hi hr =>
      have inv := sched_inv hab
      have h1 := inv.hmem i hi
      have h2 := inv.hidx
      exact absurd h1 (by omega)

/-! ## Directory discovery (`listImageFiles`) and the end-to-end pipeline -/

/-- A filesystem tree: a plain file, a directory whose entries can be listed,
or a directory on which `readdir` fails (permissions, symlink loop, races). -/
inductive FSNode where
  | file : FSNode
  | dirUnreadable : FSNode
  | dir : List (String × FSNode) → FSNode

/-- The characters after the last dot of a list, when a dot is present. -/
def lastDotSuffix : List Char → Option (List Char)
  | [] => Option.none
  | c :: rest =>
    match lastDotSuffix rest with
    | some suf => some suf
    | Option.none => if c = '.' then some rest else Option.none

/-- `path.extname`: the suffix from the last dot of the name; empty when no dot
occurs past the first character (a leading dot marks a hidden file, not an
extension). -/
def extname (name : String) : String :=
  match name.data with
  | [] => ⟨[]⟩
  | _ :: rest =>
    match lastDotSuffix rest with
    | some suf => ⟨'.' :: suf⟩
    | Option.none => ⟨[]⟩

def toLowerChar (c : Char) : Char :=
  if 65 ≤ c.toNat ∧ c.toNat ≤ 90 then Char.ofNat (c.toNat + 32) else c

def lowerStr (s : String) : String := ⟨s.data.map toLowerChar⟩

def allowedExts : List String := [".jpg", ".jpeg", ".png", ".gif", ".webp", ".avif"]

def rootDir : String := "./images"

mutual

/-- `walk` applied to one node: `readdir` fails on an unreadable directory and
on a non-directory; otherwise every entry is processed in order. -/
def walkNode (p : String) : FSNode → Except Unit (List String)
  | FSNode.file => Except.error ()
  | FSNode.dirUnreadable => Except.error ()
  | FSNode.dir es => walkEntries p es

/-- The `for` loop over the entries of one directory: directories are descended
(with their errors propagating up unhandled), files are kept when their
lowercased extension is in the allowed set. -/
def walkEntries (p : String) : List (String × FSNode) → Except Unit (List String)
  | [] => Except.ok []
  | (name, n) :: rest =>
    match n with
    | FSNode.file =>
      match walkEntries p rest with
      | Except.error e => Except.error e
      | Except.ok more =>
        Except.ok ((if allowedExts.contains (lowerStr (extname name)) then
          [p ++ "/" ++ name] else []) ++ more)
    | other =>
      match walkNode (p ++ "/" ++ name) other with
      | Except.error e => Except.error e
      | Except.ok here =>
        match walkEntries p rest with
        | Except.error e => Except.error e
        | Except.ok more => Except.ok (here ++ more)

end

/-- Ascending code-unit order of the final `files.sort()`. -/
def fileLe (a b : String) : Prop := strLt b a = false

instance : DecidableRel fileLe := fun a b =>
  (instDecidableEqBool (strLt b a) false : Decidable (strLt b a = false))

/-- `listImageFiles`: walk the root, then sort ascending. -/
def listImageFiles (root : FSNode) : Except Unit (List String) :=
  match walkNode rootDir root with
  | Except.error e => Except.error e
  | Except.ok files => Except.ok (List.insertionSort fileLe files)

/-- The tree contains an unreadable directory (possibly the root itself). -/
inductive HasUnreadable : FSNode → Prop where
  | here : HasUnreadable FSNode.dirUnreadable
  | child {es : List (String × FSNode)} {name : String} {n : FSNode} :
      (name, n) ∈ es → HasUnreadable n → HasUnreadable (FSNode.dir es)

theorem walkEntries_error {p : String} :
    ∀ {es : List (String × FSNode)} {name : String} {n : FSNode},
      (name, n) ∈ es → HasUnreadable n → (∀ q, walkNode q n = Except.error ()) →
      walkEntries p es = Except.error () := by
  intro es
  induction es with
  | nil =>
    intro name n hmem _ _
    exact absurd hmem (List.not_mem_nil _)
  | cons hd tl ih =>
    intro name n hmem hun hw
    rcases List.mem_cons.mp hmem with heq | htl
    · subst heq
      cases hun with
      | here => simp [walkEntries, walkNode]
      | child hmem2 hun2 => simp [walkEntries, hw (p ++ "/" ++ name)]
    · obtain ⟨nm, nd⟩ := hd
      cases nd with
      | file => simp [walkEntries, ih htl hun hw]
      | dirUnreadable => simp [walkEntries, walkNode]
      | dir es2 =>
        cases hwn : walkNode (p ++ "/" ++ nm) (FSNode.dir es2) with
        | error e => simp [walkEntries, hwn]
        | ok here2 => simp [walkEntries, hwn, ih htl hun hw]

theorem walkNode_error {n : FSNode} (h : HasUnreadable n) :
    ∀ p, walkNode p n = Except.error () := by
  induction h with
  | here =>
    intro p
    rfl
  | child hmem hun ih =>
    intro p
    show walkEntries p _ = Except.error ()
    exact walkEntries_error hmem hun ih

/-- The settled outcome of the worker `main` passes to `mapLimit`: the worker
is an async function that never throws, so it always fulfils with the entry it
builds for `files[i]`. -/
def mainWorkerVal (ex mt : String → Option Int) (files : List String) (i : Nat) :
    Option GalleryEntry :=
  some (entryOf ex mt (files.getD i default))

def SchedResolvesTo (len limit : Nat) {β : Type} (w : Nat → β)
    (r : List (Option β)) : Prop :=
  ∃ s, SchedReach len limit w s ∧ s.resolvedVal = some r

/-- The end-to-end run of `main` under the top-level `catch`: a discovery
error makes the run exit with status 1 having written nothing; otherwise the
resolved `mapLimit` results are filtered by truthiness, sorted and written,
and the process exits 0. -/
def MainRun (root : FSNode) (ex mt : String → Option Int)
    (o : Option (List GalleryEntry) × Nat) : Prop :=
  match listImageFiles root with
  | Except.error _ => o = (Option.none, 1)
  | Except.ok files =>
    ∃ r, SchedResolvesTo files.length 8 (mainWorkerVal ex mt files) r ∧
      o = (some (sortEntries (r.filterMap (fun x => x.bind id))), 0)

/-- C7: for every input list and every concurrency limit, any run of the
concurrency limiter that resolves has stored, at index i of the result array,
exactly the outcome of the worker on input i — each input resolved exactly
once, regardless of completion order. -/
theorem c7_maplimit_correspondence {α γ : Type} [Inhabited α] (items : List α)
    (limit : Nat) (w : α → Nat → Option γ) (_hlim : 1 ≤ limit)
    (s : SchedState (Option γ))
    (hreach : SchedReach items.length limit (fun i => w (items.getD i default) i) s)
    (r : List (Option (Option γ))) (hres : s.resolvedVal = some r) :
    r.length = items.length ∧
    ∀ i, i < items.length →
      r.getD i Option.none = some (w (items.getD i default) i) := by
  have heq := sched_resolved_eq hreach hres
  subst heq
  constructor
  · simp
  · intro i hilt
    rw [List.getD_eq_getElem _ _ (by simpa using hilt)]
    simp

theorem c7_maplimit_correspondence_witness :
    ([some (some "e")] : List (Option (Option String))).length =
      (["e"] : List String).length ∧
    ∀ i, i < (["e"] : List String).length →
      ([some (some "e")] : List (Option (Option String))).getD i Option.none =
        some ((fun v _ => some v) ((["e"] : List String).getD i default) i) :=
  c7_maplimit_correspondence ["e"] 8 (fun v _ => some v) (by omega)
    (stepResult 1 8 (fun i => (fun v _ => some v) ((["e"] : List String).getD i default) i)
      (initState (Option String) 1 8) 0)
    (Relation.ReflTransGen.single
      (SchedStep.complete (initState (Option String) 1 8) 0 (by decide) rfl))
    [some (some "e")] rfl

/-- C9: an unreadable root or an unreadable subdirectory reached during the
walk makes discovery fail; the error propagates, the run exits with a nonzero
status, and no manifest is produced. -/
theorem c9_discovery_error_fatal (root : FSNode) (hroot : HasUnreadable root)
    (ex mt : String → Option Int) :
    listImageFiles root = Except.error () ∧
    ∀ o, MainRun root ex mt o → o = (Option.none, 1) := by
  have hw := walkNode_error hroot rootDir
  have hl : listImageFiles root = Except.error () := by
    unfold listImageFiles
    rw [hw]
  refine ⟨hl, ?_⟩
  intro o ho
  unfold MainRun at ho
  rw [hl] at ho
  exact ho

theorem c9_discovery_error_fatal_witness :
    listImageFiles (FSNode.dir [("sub", FSNode.dirUnreadable)]) = Except.error () :=
  (c9_discovery_error_fatal (FSNode.dir [("sub", FSNode.dirUnreadable)])
    (@HasUnreadable.child [("sub", FSNode.dirUnreadable)] "sub" FSNode.dirUnreadable
      (List.mem_singleton.mpr rfl) HasUnreadable.here) noSource noSource).1

/-- C10: when the walk discovers zero media files the admission loop admits no
work, no completion callback ever fires, the promise of the limiter is never
resolved, and the run never reaches serialization: no outcome (written
manifest and exit status) is reachable at all. -/
theorem c10_empty_walk_never_resolves {β : Type} (limit : Nat) (w : Nat → β)
    (root : FSNode) (ex mt : String → Option Int)
    (hfiles : listImageFiles root = Except.ok []) :
    (∀ s : SchedState β, SchedReach 0 limit w s → s.resolvedVal = Option.none) ∧
    ∀ o, ¬ MainRun root ex mt o := by
  refine ⟨sched_empty limit w, ?_⟩
  intro o ho
  unfold MainRun at ho
  rw [hfiles] at ho
  obtain ⟨r, ⟨s, hreach, hres⟩, _⟩ := ho
  have hnone := sched_empty 8 (mainWorkerVal ex mt []) s hreach
  rw [hnone] at hres
  cases hres

theorem c10_empty_walk_never_resolves_witness :
    ¬ MainRun (FSNode.dir []) noSource noSource (Option.none, 1) :=
  (c10_empty_walk_never_resolves 8 (fun _ => true) (FSNode.dir []) noSource noSource
    rfl).2 (Option.none, 1)

/-- C2: every discovered file yields exactly one entry of the manifest (the
sorted output is a permutation of one entry per file, in particular nothing is
dropped and the batch never aborts), and a file for which all three sources
fail degrades to a null timestamp with source tag none. -/
theorem c2_entry_per_file (ex mt : String → Option Int) (files : List String)
    (r : List (Option (Option GalleryEntry)))
    (hr : SchedResolvesTo files.length 8 (mainWorkerVal ex mt files) r) :
    (sortEntries (r.filterMap (fun x => x.bind id))).Perm
      (files.map (entryOf ex mt)) ∧
    ∀ p, ex p = Option.none → mt p = Option.none →
      guessDateFromFilename (basename p) = Option.none →
      entryOf ex mt p = ⟨toPublicUrl p, Option.none, Source.none⟩ := by
  constructor
  · obtain ⟨s, hreach, hres⟩ := hr
    have heq := sched_resolved_eq hreach hres
    subst heq
    have hfm : ∀ l : List Nat,
        ((l.map (fun i => some (mainWorkerVal ex mt files i))).filterMap
          (fun x => x.bind id)) =
          l.map (fun i => entryOf ex mt (files.getD i default)) := by
      intro l
      induction l with
      | nil => rfl
      | cons a t ih =>
        simp only [List.map_cons, List.filterMap_cons, mainWorkerVal, Option.some_bind,
          id_eq] at ih ⊢
        rw [ih]
    rw [hfm (List.range files.length)]
    have hrange : (List.range files.length).map
        (fun i => entryOf ex mt (files.getD i default)) = files.map (entryOf ex mt) := by
      apply List.ext_getElem
      · simp
      · intro j h1 h2
        simp only [List.getElem_map, List.getElem_range]
        rw [List.getD_eq_getElem _ _ (by simpa using h2)]
    rw [hrange]
    exact List.perm_insertionSort _ _
  · intro p h1 h2 h3
    simp [entryOf, getTakenAt, h1, h2, h3]

theorem c2_entry_per_file_witness :
    (sortEntries (([some (some (entryOf noSource noSource "./images/a.jpg"))] :
        List (Option (Option GalleryEntry))).filterMap (fun x => x.bind id))).Perm
      ((["./images/a.jpg"] : List String).map (entryOf noSource noSource)) :=
  (c2_entry_per_file noSource noSource ["./images/a.jpg"]
    [some (some (entryOf noSource noSource "./images/a.jpg"))]
    ⟨stepResult 1 8 (mainWorkerVal noSource noSource ["./images/a.jpg"])
        (initState (Option GalleryEntry) 1 8) 0,
      Relation.ReflTransGen.single
        (SchedStep.complete (initState (Option GalleryEntry) 1 8) 0 (by decide) rfl),
      rfl⟩).1

end Gallery
